import Mathlib

/-!
Shallow embedding of the dataset-iteration module (`src/data.rs`): the paired
batch iterator `Iter2`, the byte-encoded text dataset `TextData`, and the
windowed sequence iterator `TextDataIter`.

Modelling conventions:
* A tensor is modelled by the list of its rows along axis 0 (`List α`); a 1-D
  tensor of `i64` indices is a `List Int`, a 1-D `u8` tensor is a `List Nat`
  with entries below 256.
* Rust `i64` fields (`batch_index`, `batch_size`, `total_size`, `seq_len`,
  `indexes_len`) are `Int`.
* `Tensor::narrow(0, start, len)` is drop-then-take on the row list; the
  external library's bound errors do not arise at the in-bounds call sites the
  iterators produce.
* `Tensor::index_select(0, index)` gathers the rows named by `index`; an
  invalid index is an external-library error, modelled by skipping.
* `Tensor::randperm` is an external collaborator (the permutation generator):
  its result is passed in as an explicit argument, and theorems assume it is a
  permutation of `0 .. n` as the spec states.
* `Iterator::next`, which mutates `&mut self` and returns `Option<Item>`, is a
  function from the iterator state to the pair of the optional item and the
  resulting state.
* A panic (shape mismatch in `Iter2::new`, out-of-bounds indexing in
  `TextData::label_to_char`) is modelled by `Option`, `none` meaning the
  fatal error.
-/

namespace Tch

/-- Device of a tensor, as in `crate::Device`; the iterators only store it and
relocation does not change row contents. -/
inductive Device where
  | Cpu : Device
  | Cuda : Nat → Device
deriving DecidableEq, Repr

/-- Model of `Tensor::narrow(0, start, len)`: rows `[start, start+len)`. -/
def narrow {α : Type} (l : List α) (start len : Int) : List α :=
  (l.drop start.toNat).take len.toNat

/-- Model of `Tensor::index_select(0, index)`: gather rows at the given
indices. Indices outside `[0, l.length)` would be an error in the external
array library; the model skips them (no in-scope call site produces one). -/
def index_select {α : Type} (l : List α) (index : List Int) : List α :=
  index.filterMap fun i => if 0 ≤ i then l.get? i.toNat else none

/-- Model of `Tensor::to_device`: relocation preserves the row contents. -/
def toDevice {α : Type} (_d : Device) (l : List α) : List α := l

/-- State of `Iter2` (src/data.rs lines 13-21). -/
structure Iter2 (α β : Type) where
  xs : List α
  ys : List β
  batch_index : Int
  batch_size : Int
  total_size : Int
  device : Device
  return_smaller_last_batch : Bool
deriving DecidableEq

/-- Model of `Iter2::new` (src/data.rs lines 35-49). The panic on a leading
dimension mismatch is `none`. -/
def Iter2.new {α β : Type} (xs : List α) (ys : List β) (batch_size : Int) :
    Option (Iter2 α β) :=
  let total_size : Int := (xs.length : Int)
  if (ys.length : Int) ≠ total_size then none
  else some ⟨xs, ys, 0, batch_size, total_size, Device.Cpu, false⟩

/-- Model of `Iter2::shuffle` (src/data.rs lines 55-60). The permutation
`index`, drawn externally by `Tensor::randperm(total_size)`, is an argument. -/
def Iter2.shuffle {α β : Type} (it : Iter2 α β) (index : List Int) : Iter2 α β :=
  { it with xs := index_select it.xs index, ys := index_select it.ys index }

/-- Model of `Iter2::to_device` (src/data.rs lines 63-66). -/
def Iter2.to_device {α β : Type} (it : Iter2 α β) (d : Device) : Iter2 α β :=
  { it with device := d }

/-- Model of `Iter2::return_smaller_last_batch` (src/data.rs lines 69-72),
primed to avoid clashing with the field of the same name. -/
def Iter2.return_smaller_last_batch' {α β : Type} (it : Iter2 α β) : Iter2 α β :=
  { it with return_smaller_last_batch := true }

/-- Model of `<Iter2 as Iterator>::next` (src/data.rs lines 78-90). -/
def Iter2.next {α β : Type} (it : Iter2 α β) :
    Option (List α × List β) × Iter2 α β :=
  let start := it.batch_index * it.batch_size
  let size := min it.batch_size (it.total_size - start)
  if size ≤ 0 ∨ (it.return_smaller_last_batch = false ∧ size < it.batch_size) then
    (none, it)
  else
    (some (toDevice it.device (narrow it.xs start size),
           toDevice it.device (narrow it.ys start size)),
      { it with batch_index := it.batch_index + 1 })

/-- Pulling `Iter2` until exhaustion: the list of items a `for` loop over the
iterator sees, with a fuel bound to make the recursion structural. -/
def Iter2.runPass {α β : Type} : Nat → Iter2 α β → List (List α × List β)
  | 0, _ => []
  | Nat.succ f, it =>
    match it.next with
    | (none, _) => []
    | (some b, it2) => b :: Iter2.runPass f it2

/-- Iterating `Iter2.next` for its state change only, `m` times. -/
def Iter2.stepN {α β : Type} (m : Nat) (it : Iter2 α β) : Iter2 α β :=
  (fun s => (Iter2.next s).2)^[m] it

/-- State of `TextData` (src/data.rs lines 95-98); `data` is the encoded `u8`
tensor, one label per source byte. -/
structure TextData where
  data : List Nat
  char_for_label : List Char
deriving DecidableEq

/-- Encoding loop of `TextData::new` (src/data.rs lines 117-125): scan the
bytes in order, threading the `label_for_char` map (an association list, the
`HashMap<u8, u8>`) and the `char_for_label` table; each byte is replaced by
its label. The `as u8` cast of the fresh label is `% 256`. -/
def encodeLoop : List Nat → List (Nat × Nat) → List Char → List Nat × List Char
  | [], _, char_for_label => ([], char_for_label)
  | c :: rest, label_for_char, char_for_label =>
    match label_for_char.lookup c with
    | some label =>
      let r := encodeLoop rest label_for_char char_for_label
      (label :: r.1, r.2)
    | none =>
      let label := char_for_label.length % 256
      let r := encodeLoop rest ((c, label) :: label_for_char)
        (char_for_label ++ [Char.ofNat c])
      (label :: r.1, r.2)

/-- Model of `TextData::new` (src/data.rs lines 112-131) applied to the bytes
read from the file (file I/O itself is outside the model). -/
def TextData.new (buffer : List Nat) : TextData :=
  let r := encodeLoop buffer [] []
  ⟨r.1, r.2⟩

/-- Model of `TextData::labels` (src/data.rs lines 134-136). -/
def TextData.labels (td : TextData) : Int :=
  (td.char_for_label.length : Int)

/-- Rust's `as usize` cast of an `i64`, used by `label_to_char`: two's
complement wrap into `[0, 2^64)`. -/
def castUsize (i : Int) : Nat := (i % (2 : Int) ^ 64).toNat

/-- Model of `TextData::label_to_char` (src/data.rs lines 143-145):
`self.char_for_label[label as usize]`, whose out-of-bounds panic is `none`. -/
def TextData.label_to_char (td : TextData) (label : Int) : Option Char :=
  td.char_for_label.get? (castUsize label)

/-- State of `TextDataIter` (src/data.rs lines 101-108). -/
structure TextDataIter where
  data : List Nat
  seq_len : Int
  batch_index : Int
  batch_size : Int
  indexes : List Int
  indexes_len : Int
deriving DecidableEq

/-- Model of `TextData::iter_shuffle` (src/data.rs lines 149-159). The
permutation `perm`, drawn externally by `Tensor::randperm(indexes_len)`, is an
argument. -/
def TextData.iter_shuffle (td : TextData) (seq_len batch_size : Int)
    (perm : List Int) : TextDataIter :=
  let indexes_len := (td.data.length : Int) - seq_len + 1
  ⟨td.data, seq_len, 0, batch_size, perm, indexes_len⟩

/-- Model of `<TextDataIter as Iterator>::next` (src/data.rs lines 165-180):
the yielded batch, a stack of `size` windows of length `seq_len`, is the list
of its rows. -/
def TextDataIter.next (it : TextDataIter) :
    Option (List (List Nat)) × TextDataIter :=
  let start := it.batch_index * it.batch_size
  let size := min it.batch_size (it.indexes_len - start)
  if size < it.batch_size then (none, it)
  else
    let indexes := narrow it.indexes start size
    (some (indexes.map fun i => narrow it.data i it.seq_len),
      { it with batch_index := it.batch_index + 1 })

/-- Pulling `TextDataIter` until exhaustion, with fuel. -/
def TextDataIter.runPass : Nat → TextDataIter → List (List (List Nat))
  | 0, _ => []
  | Nat.succ f, it =>
    match it.next with
    | (none, _) => []
    | (some b, it2) => b :: TextDataIter.runPass f it2

/-- Iterating `TextDataIter.next` for its state change only, `m` times. -/
def TextDataIter.stepN (m : Nat) (it : TextDataIter) : TextDataIter :=
  (fun s => (TextDataIter.next s).2)^[m] it

/-- Narrow with in-bounds natural-number arguments. -/
def narrowN {α : Type} (l : List α) (s z : Nat) : List α :=
  (l.drop s).take z

/-- Spec-side helper: the distinct byte values of the input in first-occurrence
order, given the values already seen. -/
def firstOccsAux (seen : List Nat) : List Nat → List Nat
  | [] => []
  | c :: rest =>
    if c ∈ seen then firstOccsAux seen rest
    else c :: firstOccsAux (c :: seen) rest

/-- Spec-side helper: index of the first occurrence of `c`. -/
def firstIndex (c : Nat) : List Nat → Nat
  | [] => 0
  | x :: rest => if x = c then 0 else firstIndex c rest + 1

/-- Modelled from the spec (§4.2): each previously-unseen byte value gets the
next sequential label starting at 0, previously-seen bytes reuse their label,
and the character form of each distinct byte is recorded in first-occurrence
order. -/
def encodeSpec (buffer : List Nat) : List Nat × List Char :=
  let occs := firstOccsAux [] buffer
  (buffer.map fun c => firstIndex c occs, occs.map Char.ofNat)


/-! Basic lemmas about the step functions. -/

theorem Iter2.next_none_iff {α β : Type} (it : Iter2 α β) :
    (Iter2.next it).1 = none ↔
      (min it.batch_size (it.total_size - it.batch_index * it.batch_size) ≤ 0 ∨
        (it.return_smaller_last_batch = false ∧
          min it.batch_size (it.total_size - it.batch_index * it.batch_size) < it.batch_size)) := by
  simp only [Iter2.next]
  split
  · next h => exact iff_of_true rfl h
  · next h => exact iff_of_false (by simp) h

theorem Iter2.next_of_none {α β : Type} (it : Iter2 α β)
    (h : (Iter2.next it).1 = none) : Iter2.next it = (none, it) := by
  rw [Iter2.next_none_iff] at h
  simp only [Iter2.next]
  rw [if_pos h]

theorem text_next_none_iff (it : TextDataIter) :
    (TextDataIter.next it).1 = none ↔
      min it.batch_size (it.indexes_len - it.batch_index * it.batch_size) < it.batch_size := by
  simp only [TextDataIter.next]
  split
  · next h => exact iff_of_true rfl h
  · next h => exact iff_of_false (by simp) h

theorem text_next_of_none (it : TextDataIter)
    (h : (TextDataIter.next it).1 = none) : TextDataIter.next it = (none, it) := by
  rw [text_next_none_iff] at h
  simp only [TextDataIter.next]
  rw [if_pos h]

/-- C2: `Iter2::new(xs, ys, batch_size)` fails fatally (panics) if and only if
the leading-dimension sizes of the two inputs differ; with equal leading
dimensions it succeeds, starting at batch index 0 with the given batch size. -/
theorem iter2_new_shape_mismatch {α β : Type} (xs : List α) (ys : List β)
    (batch_size : Int) :
    (Iter2.new xs ys batch_size = none ↔ ys.length ≠ xs.length) ∧
    (ys.length = xs.length →
      Iter2.new xs ys batch_size =
        some ⟨xs, ys, 0, batch_size, (xs.length : Int), Device.Cpu, false⟩) := by
  constructor
  · simp only [Iter2.new]
    split
    · next h => simpa using fun hl => h (by exact_mod_cast hl)
    · next h =>
      simp only [reduceCtorEq, false_iff, ne_eq, not_not]
      exact_mod_cast not_ne_iff.mp h
  · intro hl
    simp [Iter2.new, hl]

/-- C2 witness at concrete inputs. -/
theorem iter2_new_shape_mismatch_witness :
    ([3, 4] : List Nat).length = ([1, 2] : List Nat).length ∧
      Iter2.new [1, 2] [3, 4] 5 =
        some ⟨[1, 2], [3, 4], 0, 5, 2, Device.Cpu, false⟩ :=
  ⟨by decide, (iter2_new_shape_mismatch [1, 2] [3, 4] 5).2 (by decide)⟩

/-- C5: with a window length longer than the encoded data, `iter_shuffle` still
constructs an iterator (it is a total function); that iterator has no valid
window start (`indexes_len <= 0`) and its first `next` immediately returns
exhaustion. `Tensor::randperm` is external; per the spec it yields the empty
permutation of zero valid starts, and here any `perm` value works. -/
theorem iter_shuffle_long_seq_exhausted (td : TextData) (seq_len batch_size : Int)
    (perm : List Int) (hseq : (td.data.length : Int) < seq_len)
    (hbs : 0 < batch_size) :
    (td.iter_shuffle seq_len batch_size perm).indexes_len ≤ 0 ∧
    (TextDataIter.next (td.iter_shuffle seq_len batch_size perm)).1 = none := by
  have hil : (td.iter_shuffle seq_len batch_size perm).indexes_len =
      (td.data.length : Int) - seq_len + 1 := rfl
  constructor
  · omega
  · rw [text_next_none_iff]
    have hbi : (td.iter_shuffle seq_len batch_size perm).batch_index = 0 := rfl
    have hbsz : (td.iter_shuffle seq_len batch_size perm).batch_size = batch_size := rfl
    rw [hbi, hbsz, hil]
    omega

/-- C5 witness: two bytes of data, window length 5, batch size 2. -/
theorem iter_shuffle_long_seq_exhausted_witness :
    (((TextData.new [65, 66]).data.length : Int) < 5 ∧ (0 : Int) < 2) ∧
    ((TextData.new [65, 66]).iter_shuffle 5 2 []).indexes_len ≤ 0 ∧
    (TextDataIter.next ((TextData.new [65, 66]).iter_shuffle 5 2 [])).1 = none :=
  ⟨⟨by decide, by decide⟩,
    iter_shuffle_long_seq_exhausted (TextData.new [65, 66]) 5 2 [] (by decide) (by decide)⟩

/-- C10: for both iterators, a `next` call that returns exhaustion leaves the
state (in particular `batch_index`) unchanged, and every subsequent `next`
also returns exhaustion: exhaustion never reverses. -/
theorem next_none_frozen :
    (∀ (α β : Type) (it : Iter2 α β), (Iter2.next it).1 = none →
      (Iter2.next it).2 = it ∧ ∀ m : Nat, Iter2.stepN m it = it ∧
        (Iter2.next (Iter2.stepN m it)).1 = none) ∧
    (∀ it : TextDataIter, (TextDataIter.next it).1 = none →
      (TextDataIter.next it).2 = it ∧ ∀ m : Nat, TextDataIter.stepN m it = it ∧
        (TextDataIter.next (TextDataIter.stepN m it)).1 = none) := by
  constructor
  · intro α β it h
    have hpair := Iter2.next_of_none it h
    have hfix : (fun s : Iter2 α β => (Iter2.next s).2) it = it := by
      show (Iter2.next it).2 = it
      rw [hpair]
    refine ⟨by rw [hpair], fun m => ?_⟩
    have hstep : Iter2.stepN m it = it := Function.iterate_fixed hfix m
    exact ⟨hstep, by rw [hstep, h]⟩
  · intro it h
    have hpair := text_next_of_none it h
    have hfix : (fun s : TextDataIter => (TextDataIter.next s).2) it = it := by
      show (TextDataIter.next it).2 = it
      rw [hpair]
    refine ⟨by rw [hpair], fun m => ?_⟩
    have hstep : TextDataIter.stepN m it = it := Function.iterate_fixed hfix m
    exact ⟨hstep, by rw [hstep, h]⟩

/-- C10 witness: one exhausted iterator of each kind, stepped three times. -/
theorem next_none_frozen_witness :
    ((Iter2.next (⟨[0, 1, 2], [3, 4, 5], 1, 2, 3, Device.Cpu, false⟩ : Iter2 Nat Nat)).1 = none ∧
      (Iter2.next (⟨[0, 1, 2], [3, 4, 5], 1, 2, 3, Device.Cpu, false⟩ : Iter2 Nat Nat)).2 =
        (⟨[0, 1, 2], [3, 4, 5], 1, 2, 3, Device.Cpu, false⟩ : Iter2 Nat Nat) ∧
      Iter2.stepN 3 (⟨[0, 1, 2], [3, 4, 5], 1, 2, 3, Device.Cpu, false⟩ : Iter2 Nat Nat) =
        (⟨[0, 1, 2], [3, 4, 5], 1, 2, 3, Device.Cpu, false⟩ : Iter2 Nat Nat)) ∧
    ((TextDataIter.next (⟨[0, 1, 2], 2, 1, 2, [0, 1], 2⟩ : TextDataIter)).1 = none ∧
      (TextDataIter.next (⟨[0, 1, 2], 2, 1, 2, [0, 1], 2⟩ : TextDataIter)).2 =
        (⟨[0, 1, 2], 2, 1, 2, [0, 1], 2⟩ : TextDataIter)) := by
  have h1 := next_none_frozen.1 Nat Nat ⟨[0, 1, 2], [3, 4, 5], 1, 2, 3, Device.Cpu, false⟩ (by decide)
  have h2 := next_none_frozen.2 ⟨[0, 1, 2], 2, 1, 2, [0, 1], 2⟩ (by decide)
  exact ⟨⟨by decide, h1.1, (h1.2 3).1⟩, ⟨by decide, h2.1⟩⟩

/-! Characterization of `Iter2.next` over natural-number views of the state. -/

theorem natCast_mul_eq (jj kk : Nat) : ((jj : Int) * (kk : Int)) = ((jj * kk : Nat) : Int) := by
  push_cast
  ring

theorem Iter2.next_none_nat {α β : Type} (it : Iter2 α β) (jj kk nn : Nat)
    (hbi : it.batch_index = (jj : Int)) (hbs : it.batch_size = (kk : Int))
    (hts : it.total_size = (nn : Int)) (hkk : 0 < kk)
    (h : nn ≤ jj * kk ∨ (it.return_smaller_last_batch = false ∧ nn < jj * kk + kk)) :
    Iter2.next it = (none, it) := by
  apply Iter2.next_of_none
  rw [Iter2.next_none_iff, hbi, hbs, hts, natCast_mul_eq]
  rcases h with h | ⟨hf, h⟩
  · left
    omega
  · exact Or.inr ⟨hf, by omega⟩

theorem Iter2.next_some_nat {α β : Type} (it : Iter2 α β) (jj kk nn : Nat)
    (hbi : it.batch_index = (jj : Int)) (hbs : it.batch_size = (kk : Int))
    (hts : it.total_size = (nn : Int)) (hkk : 0 < kk)
    (h : ¬(nn ≤ jj * kk ∨ (it.return_smaller_last_batch = false ∧ nn < jj * kk + kk))) :
    Iter2.next it =
      (some (narrowN it.xs (jj * kk) (min kk (nn - jj * kk)),
             narrowN it.ys (jj * kk) (min kk (nn - jj * kk))),
        { it with batch_index := ((jj + 1 : Nat) : Int) }) := by
  rw [not_or] at h
  obtain ⟨h1, h2⟩ := h
  have h1' : jj * kk < nn := by omega
  have htoNat1 : ((jj * kk : Nat) : Int).toNat = jj * kk := Int.toNat_natCast _
  have htoNat2 : (min ((kk : Nat) : Int) ((nn : Int) - ((jj * kk : Nat) : Int))).toNat =
      min kk (nn - jj * kk) := by omega
  simp only [Iter2.next]
  rw [hbi, hbs, hts, natCast_mul_eq]
  rw [if_neg ?hneg]
  case hneg =>
    intro hcon
    rcases hcon with hcon | ⟨hf, hcon⟩
    · omega
    · exact h2 ⟨hf, by omega⟩
  simp only [toDevice, narrow, narrowN, htoNat1, htoNat2]
  refine congrArg₂ Prod.mk rfl ?_
  have hcast : ((jj : Int) + 1) = ((jj + 1 : Nat) : Int) := by
    push_cast
    ring
  rw [hcast]

/-- Start offset and size of each batch the pass emits from batch index `jj`
on, for a dataset of `nn` samples and batch size `kk`: all the full batches,
then, when smaller last batches are enabled and a remainder exists, the final
smaller batch. -/
def batchSpans (nn kk : Nat) (smaller : Bool) (jj : Nat) : List (Nat × Nat) :=
  ((List.range' jj (nn / kk - jj)).map fun t => (t * kk, kk)) ++
    (if smaller = true ∧ nn % kk ≠ 0 ∧ jj ≤ nn / kk
      then [((nn / kk) * kk, nn % kk)] else [])

theorem batchSpans_nil_of_le {nn kk jj : Nat} (smaller : Bool) (hkk : 0 < kk)
    (h : nn ≤ jj * kk) : batchSpans nn kk smaller jj = [] := by
  have hq : nn / kk ≤ jj := Nat.le_trans (Nat.div_le_div_right h)
    (le_of_eq (Nat.mul_div_cancel jj hkk))
  have hrange : nn / kk - jj = 0 := Nat.sub_eq_zero_of_le hq
  have hcond : ¬(smaller = true ∧ nn % kk ≠ 0 ∧ jj ≤ nn / kk) := by
    rintro ⟨-, hr, hjq⟩
    have hqj : nn / kk = jj := Nat.le_antisymm hq hjq
    have h1 : nn / kk * kk ≤ nn := Nat.div_mul_le_self nn kk
    have h3 : nn / kk * kk = jj * kk := by rw [hqj]
    have h4 : kk * (nn / kk) = nn / kk * kk := Nat.mul_comm kk (nn / kk)
    have h5 := Nat.div_add_mod nn kk
    omega
  rw [batchSpans, hrange, if_neg hcond]
  simp

theorem batchSpans_nil_false {nn kk jj : Nat} (hkk : 0 < kk)
    (h : nn < jj * kk + kk) : batchSpans nn kk false jj = [] := by
  have hmul : (jj + 1) * kk = jj * kk + kk := by ring
  have hq : nn / kk ≤ jj := by
    have h2 : nn / kk < jj + 1 := (Nat.div_lt_iff_lt_mul hkk).mpr (by omega)
    omega
  have hrange : nn / kk - jj = 0 := Nat.sub_eq_zero_of_le hq
  rw [batchSpans, hrange, if_neg (by simp)]
  simp

theorem batchSpans_cons_full {nn kk jj : Nat} (smaller : Bool) (hkk : 0 < kk)
    (h : jj * kk + kk ≤ nn) :
    batchSpans nn kk smaller jj = (jj * kk, kk) :: batchSpans nn kk smaller (jj + 1) := by
  have hmul : (jj + 1) * kk = jj * kk + kk := by ring
  have hle : jj + 1 ≤ nn / kk := by
    rw [Nat.le_div_iff_mul_le hkk]
    omega
  have hrange : nn / kk - jj = (nn / kk - (jj + 1)) + 1 := by omega
  have hifeq : (if smaller = true ∧ nn % kk ≠ 0 ∧ jj ≤ nn / kk
        then [((nn / kk) * kk, nn % kk)] else [])
      = (if smaller = true ∧ nn % kk ≠ 0 ∧ jj + 1 ≤ nn / kk
        then [((nn / kk) * kk, nn % kk)] else []) := by
    by_cases hs : smaller = true ∧ nn % kk ≠ 0
    · rw [if_pos ⟨hs.1, hs.2, by omega⟩, if_pos ⟨hs.1, hs.2, hle⟩]
    · rw [if_neg (by tauto), if_neg (by tauto)]
  rw [batchSpans, batchSpans, hrange, List.range'_succ, List.map_cons, List.cons_append, hifeq]

theorem batchSpans_last {nn kk jj : Nat} (hkk : 0 < kk)
    (h1 : jj * kk < nn) (h2 : nn < jj * kk + kk) :
    batchSpans nn kk true jj = [(jj * kk, nn - jj * kk)] := by
  have hmul : (jj + 1) * kk = jj * kk + kk := by ring
  have hq : nn / kk = jj := by
    have hlt : nn / kk < jj + 1 := by
      rw [Nat.div_lt_iff_lt_mul hkk]
      omega
    have hge : jj ≤ nn / kk := by
      rw [Nat.le_div_iff_mul_le hkk]
      omega
    omega
  have hdm := Nat.div_add_mod nn kk
  have hc1 : kk * (nn / kk) = kk * jj := by rw [hq]
  have hc2 : kk * jj = jj * kk := Nat.mul_comm kk jj
  have hmod : nn % kk = nn - jj * kk := by omega
  have hr : nn % kk ≠ 0 := by omega
  rw [batchSpans, hq, Nat.sub_self, if_pos ⟨rfl, by omega, le_refl jj⟩, hmod]
  simp

/-- Master description of a full `Iter2` pass: starting at batch index `jj`
with enough fuel, the pass emits exactly the narrows described by
`batchSpans`. -/
theorem Iter2.runPass_eq {α β : Type} :
    ∀ (fuel : Nat) (it : Iter2 α β) (jj kk nn : Nat),
      it.batch_index = (jj : Int) → it.batch_size = (kk : Int) →
      it.total_size = (nn : Int) → 0 < kk → nn / kk + 1 ≤ fuel + jj →
      Iter2.runPass fuel it =
        (batchSpans nn kk it.return_smaller_last_batch jj).map
          (fun sp => (narrowN it.xs sp.1 sp.2, narrowN it.ys sp.1 sp.2)) := by
  intro fuel
  induction fuel with
  | zero =>
    intro it jj kk nn hbi hbs hts hkk hfuel
    have hmul1 : (nn / kk + 1) * kk ≤ jj * kk :=
      Nat.mul_le_mul_right kk (by omega)
    have hmul2 : (nn / kk + 1) * kk = kk * (nn / kk) + kk := by ring
    have hdm := Nat.div_add_mod nn kk
    have hmod : nn % kk < kk := Nat.mod_lt nn hkk
    have hle : nn ≤ jj * kk := by omega
    rw [batchSpans_nil_of_le _ hkk hle]
    rfl
  | succ f IH =>
    intro it jj kk nn hbi hbs hts hkk hfuel
    by_cases hex : nn ≤ jj * kk ∨ (it.return_smaller_last_batch = false ∧ nn < jj * kk + kk)
    · have hnone := Iter2.next_none_nat it jj kk nn hbi hbs hts hkk hex
      simp only [Iter2.runPass, hnone]
      rcases hex with hex | ⟨hf, hex⟩
      · rw [batchSpans_nil_of_le _ hkk hex]
        rfl
      · rw [hf, batchSpans_nil_false hkk hex]
        rfl
    · have hsome := Iter2.next_some_nat it jj kk nn hbi hbs hts hkk hex
      simp only [Iter2.runPass, hsome]
      have hIH := IH { it with batch_index := ((jj + 1 : Nat) : Int) } (jj + 1) kk nn
        rfl hbs hts hkk (by omega)
      rw [hIH]
      dsimp only
      rw [not_or] at hex
      obtain ⟨h1, h2⟩ := hex
      by_cases hfull : jj * kk + kk ≤ nn
      · rw [batchSpans_cons_full _ hkk hfull, List.map_cons]
        have hmin : min kk (nn - jj * kk) = kk := by omega
        rw [hmin]
      · have hflag : it.return_smaller_last_batch = true := by
          cases hb : it.return_smaller_last_batch
          · exact absurd ⟨hb, by omega⟩ h2
          · rfl
        rw [hflag]
        have hlt1 : jj * kk < nn := by omega
        have hlt2 : nn < jj * kk + kk := by omega
        have hmul : (jj + 1) * kk = jj * kk + kk := by ring
        rw [batchSpans_last hkk hlt1 hlt2,
          batchSpans_nil_of_le true hkk (by omega : nn ≤ (jj + 1) * kk)]
        have hmin : min kk (nn - jj * kk) = nn - jj * kk := by omega
        rw [hmin]
        rfl

theorem narrowN_length {α : Type} (l : List α) (s z : Nat) (h : s + z ≤ l.length) :
    (narrowN l s z).length = z := by
  simp only [narrowN, List.length_take, List.length_drop]
  omega

theorem batchSpans_bound {nn kk : Nat} (smaller : Bool) (jj : Nat) (hkk : 0 < kk) :
    ∀ sp ∈ batchSpans nn kk smaller jj, sp.1 + sp.2 ≤ nn := by
  intro sp hsp
  rw [batchSpans, List.mem_append] at hsp
  rcases hsp with hsp | hsp
  · obtain ⟨t, ht, rfl⟩ := List.mem_map.mp hsp
    have htlt : t < nn / kk := by
      have := List.mem_range'_1.mp ht
      omega
    have hm1 : (t + 1) * kk ≤ nn / kk * kk := Nat.mul_le_mul_right kk (by omega)
    have hm2 : nn / kk * kk ≤ nn := Nat.div_mul_le_self nn kk
    have hm3 : (t + 1) * kk = t * kk + kk := by ring
    dsimp only
    omega
  · by_cases hc : smaller = true ∧ nn % kk ≠ 0 ∧ jj ≤ nn / kk
    · rw [if_pos hc] at hsp
      have hsp' : sp = ((nn / kk) * kk, nn % kk) := by
        simpa using hsp
      subst hsp'
      have hdm := Nat.div_add_mod nn kk
      have hc1 : kk * (nn / kk) = nn / kk * kk := Nat.mul_comm kk (nn / kk)
      dsimp only
      omega
    · rw [if_neg hc] at hsp
      simp at hsp

theorem batchSpans_map_sizes (nn kk : Nat) (sm : Bool) :
    (batchSpans nn kk sm 0).map (fun sp => (sp.2, sp.2)) =
      List.replicate (nn / kk) (kk, kk) ++
        (if nn % kk ≠ 0 ∧ sm = true then [(nn % kk, nn % kk)] else []) := by
  rw [batchSpans, List.map_append, List.map_map]
  congr 1
  · have hcomp : ((fun sp : Nat × Nat => (sp.2, sp.2)) ∘ fun t => (t * kk, kk)) =
        fun _ => ((kk : Nat), (kk : Nat)) := rfl
    rw [hcomp, List.map_const', List.length_range']
    simp
  · by_cases hc : sm = true ∧ nn % kk ≠ 0
    · rw [if_pos ⟨hc.1, hc.2, Nat.zero_le _⟩, if_pos ⟨hc.2, hc.1⟩]
      rfl
    · rw [if_neg (by tauto), if_neg (by tauto)]
      rfl

/-- C1: for tensors with equal leading dimension `nn` and positive batch size
`kk`, a full `Iter2` pass from batch index 0 yields exactly `nn / kk` batches,
each of `kk` rows on both sides, when returning a smaller last batch is
disabled; enabling it additionally yields, exactly when `nn % kk` is nonzero,
one final batch of `nn % kk` rows. -/
theorem iter2_pass_batch_sizes {α β : Type} (xs : List α) (ys : List β)
    (nn kk fuel : Nat) (hxs : xs.length = nn) (hys : ys.length = nn)
    (hkk : 0 < kk) (hfuel : nn / kk + 1 ≤ fuel) (it0 : Iter2 α β)
    (hnew : Iter2.new xs ys (kk : Int) = some it0) :
    ((Iter2.runPass fuel it0).map (fun b => (b.1.length, b.2.length)) =
        List.replicate (nn / kk) (kk, kk)) ∧
    ((Iter2.runPass fuel (Iter2.return_smaller_last_batch' it0)).map
        (fun b => (b.1.length, b.2.length)) =
      List.replicate (nn / kk) (kk, kk) ++
        (if nn % kk ≠ 0 then [(nn % kk, nn % kk)] else [])) := by
  rw [Iter2.new, if_neg (by rw [hxs, hys]; exact not_not_intro rfl)] at hnew
  obtain rfl := (Option.some.inj hnew).symm
  have hsizes : ∀ (sm : Bool) (it1 : Iter2 α β), it1.xs = xs → it1.ys = ys →
      it1.batch_index = ((0 : Nat) : Int) → it1.batch_size = (kk : Int) →
      it1.total_size = (nn : Int) → it1.return_smaller_last_batch = sm →
      (Iter2.runPass fuel it1).map (fun b => (b.1.length, b.2.length)) =
        List.replicate (nn / kk) (kk, kk) ++
          (if nn % kk ≠ 0 ∧ sm = true then [(nn % kk, nn % kk)] else []) := by
    intro sm it1 h1 h2 h3 h4 h5 h6
    rw [Iter2.runPass_eq fuel it1 0 kk nn h3 h4 h5 hkk (by omega)]
    rw [List.map_map, h6]
    have hmapeq : ((fun b : List α × List β => (b.1.length, b.2.length)) ∘
          fun sp : Nat × Nat => (narrowN it1.xs sp.1 sp.2, narrowN it1.ys sp.1 sp.2)) =
        fun sp : Nat × Nat => ((narrowN it1.xs sp.1 sp.2).length, (narrowN it1.ys sp.1 sp.2).length) := rfl
    rw [hmapeq]
    rw [List.map_congr_left (fun sp hsp => ?_), batchSpans_map_sizes nn kk sm]
    have hb := @batchSpans_bound nn kk sm 0 hkk sp hsp
    rw [narrowN_length it1.xs sp.1 sp.2 (by rw [h1, hxs]; exact hb),
      narrowN_length it1.ys sp.1 sp.2 (by rw [h2, hys]; exact hb)]
  constructor
  · rw [hsizes false _ rfl rfl rfl rfl (by rw [hxs]) rfl]
    simp
  · rw [hsizes true _ rfl rfl rfl rfl
      (by show (xs.length : Int) = (nn : Int); rw [hxs]) rfl]
    simp

/-- C1 witness: five samples, batch size two; without a smaller last batch the
pass yields two batches of two, with it an extra batch of one. -/
theorem iter2_pass_batch_sizes_witness :
    (([10, 11, 12, 13, 14] : List Nat).length = 5 ∧
      ([20, 21, 22, 23, 24] : List Nat).length = 5 ∧ 0 < 2 ∧ 5 / 2 + 1 ≤ 6 ∧
      Iter2.new [10, 11, 12, 13, 14] [20, 21, 22, 23, 24] ((2 : Nat) : Int) =
        some ⟨[10, 11, 12, 13, 14], [20, 21, 22, 23, 24], 0, 2, 5, Device.Cpu, false⟩) ∧
    ((Iter2.runPass 6 (⟨[10, 11, 12, 13, 14], [20, 21, 22, 23, 24], 0, 2, 5,
          Device.Cpu, false⟩ : Iter2 Nat Nat)).map (fun b => (b.1.length, b.2.length)) =
        List.replicate (5 / 2) (2, 2)) ∧
    ((Iter2.runPass 6 (Iter2.return_smaller_last_batch'
          (⟨[10, 11, 12, 13, 14], [20, 21, 22, 23, 24], 0, 2, 5,
            Device.Cpu, false⟩ : Iter2 Nat Nat))).map (fun b => (b.1.length, b.2.length)) =
      List.replicate (5 / 2) (2, 2) ++ (if 5 % 2 ≠ 0 then [(5 % 2, 5 % 2)] else [])) :=
  ⟨⟨by decide, by decide, by decide, by decide, by decide⟩,
    iter2_pass_batch_sizes [10, 11, 12, 13, 14] [20, 21, 22, 23, 24] 5 2 6
      (by decide) (by decide) (by decide) (by decide) _ (by decide)⟩

theorem narrowN_range {nn s z : Nat} (h : s + z ≤ nn) :
    narrowN (List.range nn) s z = List.range' s z := by
  have e1 : List.range nn = List.range' 0 s ++ List.range' s (nn - s) := by
    rw [List.range_eq_range']
    have e2 : List.range' 0 s ++ List.range' (0 + s) (nn - s) = List.range' 0 ((nn - s) + s) :=
      List.range'_append_1 0 s (nn - s)
    rw [show (nn - s) + s = nn by omega] at e2
    rw [← e2, Nat.zero_add]
  have e3 : List.range' s (nn - s) = List.range' s z ++ List.range' (s + z) (nn - s - z) := by
    have e4 : List.range' s z ++ List.range' (s + z) (nn - s - z) = List.range' s ((nn - s - z) + z) :=
      List.range'_append_1 s z (nn - s - z)
    rw [show (nn - s - z) + z = nn - s by omega] at e4
    exact e4.symm
  rw [narrowN, e1]
  rw [List.drop_left' (by rw [List.length_range'] : (List.range' 0 s).length = s)]
  rw [e3]
  rw [List.take_left' (by rw [List.length_range'] : (List.range' s z).length = z)]

theorem flatten_map_range' (kk : Nat) :
    ∀ (m jj : Nat), (((List.range' jj m).map fun t => List.range' (t * kk) kk)).flatten =
      List.range' (jj * kk) (m * kk) := by
  intro m
  induction m with
  | zero => intro jj; simp
  | succ m IH =>
    intro jj
    rw [List.range'_succ, List.map_cons, List.flatten_cons, IH (jj + 1)]
    have e1 : (jj + 1) * kk = jj * kk + kk := by ring
    have e2 : (m + 1) * kk = m * kk + kk := by ring
    rw [e1, e2, List.range'_append_1]

/-- C6: within one `Iter2` pass from batch index 0, the source-index ranges of
the yielded batches are pairwise disjoint, whatever the smaller-last-batch
setting; with it enabled their union is exactly the index range `[0, nn)`.
The batches are observed through row values by iterating over the index
tensors `range nn` themselves. -/
theorem iter2_pass_disjoint_cover (nn kk fuel : Nat) (sm : Bool) (hkk : 0 < kk)
    (hfuel : nn / kk + 1 ≤ fuel) (it0 : Iter2 Nat Nat)
    (hnew : Iter2.new (List.range nn) (List.range nn) (kk : Int) = some it0) :
    ((Iter2.runPass fuel { it0 with return_smaller_last_batch := sm }).map
        (fun b => b.1)).Pairwise List.Disjoint ∧
    (sm = true →
      ((Iter2.runPass fuel { it0 with return_smaller_last_batch := sm }).map
        (fun b => b.1)).flatten = List.range nn) := by
  rw [Iter2.new, if_neg (not_not_intro rfl)] at hnew
  obtain rfl := (Option.some.inj hnew).symm
  have hlen : (List.range nn).length = nn := List.length_range nn
  have hmaster := Iter2.runPass_eq fuel
    ({ (⟨List.range nn, List.range nn, 0, (kk : Int), ((List.range nn).length : Int),
        Device.Cpu, false⟩ : Iter2 Nat Nat) with return_smaller_last_batch := sm })
    0 kk nn rfl rfl (by show ((List.range nn).length : Int) = (nn : Int); rw [hlen]) hkk
    (by omega)
  have hfirst : ((Iter2.runPass fuel { (⟨List.range nn, List.range nn, 0, (kk : Int),
        ((List.range nn).length : Int), Device.Cpu, false⟩ : Iter2 Nat Nat) with
        return_smaller_last_batch := sm }).map (fun b => b.1)) =
      (batchSpans nn kk sm 0).map (fun sp => List.range' sp.1 sp.2) := by
    rw [hmaster, List.map_map]
    exact List.map_congr_left (fun sp hsp => by
      have hb := @batchSpans_bound nn kk sm 0 hkk sp hsp
      show narrowN (List.range nn) sp.1 sp.2 = List.range' sp.1 sp.2
      exact narrowN_range hb)
  have hflat : ((batchSpans nn kk sm 0).map (fun sp => List.range' sp.1 sp.2)).flatten =
      List.range' 0 (if nn % kk ≠ 0 ∧ sm = true then nn else nn / kk * kk) := by
    rw [batchSpans, List.map_append, List.flatten_append, List.map_map]
    have hcomp : ((fun sp : Nat × Nat => List.range' sp.1 sp.2) ∘ fun t => (t * kk, kk)) =
        fun t => List.range' (t * kk) kk := rfl
    rw [hcomp, flatten_map_range' kk (nn / kk - 0) 0]
    have hdm := Nat.div_add_mod nn kk
    have hcm : kk * (nn / kk) = nn / kk * kk := Nat.mul_comm kk (nn / kk)
    by_cases hc : sm = true ∧ nn % kk ≠ 0
    · rw [if_pos ⟨hc.1, hc.2, Nat.zero_le _⟩, if_pos ⟨hc.2, hc.1⟩]
      have e1 : List.range' 0 (nn / kk * kk) ++ List.range' (0 + nn / kk * kk) (nn % kk) =
          List.range' 0 (nn % kk + nn / kk * kk) := List.range'_append_1 0 (nn / kk * kk) (nn % kk)
      rw [Nat.zero_add] at e1
      simp only [List.flatten, List.append_nil, Nat.zero_mul, Nat.sub_zero]
      rw [e1, show nn % kk + nn / kk * kk = nn by omega]
    · rw [if_neg (by tauto), if_neg (by tauto)]
      simp
  constructor
  · rw [hfirst]
    have hnodup : (((batchSpans nn kk sm 0).map (fun sp => List.range' sp.1 sp.2)).flatten).Nodup := by
      rw [hflat]
      exact List.nodup_range' _ _
    exact (List.nodup_flatten.mp hnodup).2
  · intro hsm
    rw [hfirst, hflat]
    by_cases hr : nn % kk ≠ 0
    · rw [if_pos ⟨hr, hsm⟩, List.range_eq_range']
    · rw [if_neg (by tauto)]
      have : nn / kk * kk = nn :=
        Nat.div_mul_cancel (Nat.dvd_of_mod_eq_zero (by omega))
      rw [this, List.range_eq_range']

/-- C6 witness: five indices, batch size two, smaller last batch enabled. -/
theorem iter2_pass_disjoint_cover_witness :
    (0 < 2 ∧ 5 / 2 + 1 ≤ 4 ∧
      Iter2.new (List.range 5) (List.range 5) ((2 : Nat) : Int) =
        some ⟨List.range 5, List.range 5, 0, 2, 5, Device.Cpu, false⟩) ∧
    ((Iter2.runPass 4 { (⟨List.range 5, List.range 5, 0, 2, 5, Device.Cpu, false⟩ :
          Iter2 Nat Nat) with return_smaller_last_batch := true }).map
        (fun b => b.1)).Pairwise List.Disjoint ∧
    ((Iter2.runPass 4 { (⟨List.range 5, List.range 5, 0, 2, 5, Device.Cpu, false⟩ :
          Iter2 Nat Nat) with return_smaller_last_batch := true }).map
        (fun b => b.1)).flatten = List.range 5 := by
  have h := iter2_pass_disjoint_cover 5 2 4 true (by decide) (by decide)
    ⟨List.range 5, List.range 5, 0, 2, 5, Device.Cpu, false⟩ (by decide)
  exact ⟨⟨by decide, by decide, by decide⟩, h.1, h.2 rfl⟩

/-! Characterization of `TextDataIter.next` over natural-number views. -/

theorem text_next_none_nat (it : TextDataIter) (jj kk mm : Nat)
    (hbi : it.batch_index = (jj : Int)) (hbs : it.batch_size = (kk : Int))
    (hil : it.indexes_len = (mm : Int)) (h : mm < jj * kk + kk) :
    TextDataIter.next it = (none, it) := by
  apply text_next_of_none
  rw [text_next_none_iff, hbi, hbs, hil, natCast_mul_eq]
  omega

theorem text_next_some_nat (it : TextDataIter) (jj kk mm : Nat)
    (hbi : it.batch_index = (jj : Int)) (hbs : it.batch_size = (kk : Int))
    (hil : it.indexes_len = (mm : Int)) (h : jj * kk + kk ≤ mm) :
    TextDataIter.next it =
      (some ((narrowN it.indexes (jj * kk) kk).map
          (fun i => narrow it.data i it.seq_len)),
        { it with batch_index := ((jj + 1 : Nat) : Int) }) := by
  simp only [TextDataIter.next]
  rw [hbi, hbs, hil, natCast_mul_eq]
  rw [if_neg (by omega)]
  have hmin : min ((kk : Nat) : Int) ((mm : Int) - ((jj * kk : Nat) : Int)) =
      ((kk : Nat) : Int) := by omega
  rw [hmin]
  have hn : narrow it.indexes ((jj * kk : Nat) : Int) ((kk : Nat) : Int) =
      narrowN it.indexes (jj * kk) kk := by
    simp only [narrow, narrowN, Int.toNat_natCast]
  rw [hn]
  refine congrArg₂ Prod.mk rfl ?_
  have hcast : ((jj : Int) + 1) = ((jj + 1 : Nat) : Int) := by
    push_cast
    ring
  rw [hcast]

/-- Master description of a full `TextDataIter` pass: starting at batch index
`jj` with enough fuel, the pass emits one batch of `kk` windows per full group
of permuted start offsets, and stops at the first incomplete group. -/
theorem text_runPass_eq :
    ∀ (fuel : Nat) (it : TextDataIter) (jj kk mm : Nat),
      it.batch_index = (jj : Int) → it.batch_size = (kk : Int) →
      it.indexes_len = (mm : Int) → 0 < kk → mm / kk ≤ fuel + jj →
      TextDataIter.runPass fuel it =
        (List.range' jj (mm / kk - jj)).map
          (fun t => (narrowN it.indexes (t * kk) kk).map
            (fun i => narrow it.data i it.seq_len)) := by
  intro fuel
  induction fuel with
  | zero =>
    intro it jj kk mm hbi hbs hil hkk hfuel
    rw [show mm / kk - jj = 0 by omega]
    rfl
  | succ f IH =>
    intro it jj kk mm hbi hbs hil hkk hfuel
    have hmul : (jj + 1) * kk = jj * kk + kk := by ring
    by_cases hex : mm < jj * kk + kk
    · have hnone := text_next_none_nat it jj kk mm hbi hbs hil hex
      simp only [TextDataIter.runPass, hnone]
      have hq : mm / kk ≤ jj := by
        have h2 : mm / kk < jj + 1 := (Nat.div_lt_iff_lt_mul hkk).mpr (by omega)
        omega
      rw [show mm / kk - jj = 0 by omega]
      rfl
    · have hsome := text_next_some_nat it jj kk mm hbi hbs hil (by omega)
      simp only [TextDataIter.runPass, hsome]
      rw [IH { it with batch_index := ((jj + 1 : Nat) : Int) } (jj + 1) kk mm
        rfl hbs hil hkk (by omega)]
      dsimp only
      have hle : jj + 1 ≤ mm / kk := by
        rw [Nat.le_div_iff_mul_le hkk]
        omega
      rw [show mm / kk - jj = (mm / kk - (jj + 1)) + 1 by omega, List.range'_succ,
        List.map_cons]

/-- C3 counterexample: with data of length 0, `seq_len = 3` and
`batch_size = 1`, the quantity `indexes_len = length - seq_len + 1` is `-2`,
so `indexes_len // batch_size = -2`, yet the pass yields zero batches: the
claimed batch count is wrong whenever `seq_len` exceeds `length + 1`. -/
theorem text_iter_count_counterexample :
    ((TextData.new []).iter_shuffle 3 1 []).indexes_len = -2 ∧
    TextDataIter.runPass 5 ((TextData.new []).iter_shuffle 3 1 []) = [] ∧
    ¬(((TextDataIter.runPass 5 ((TextData.new []).iter_shuffle 3 1 [])).length : Int) =
        ((TextData.new []).iter_shuffle 3 1 []).indexes_len / 1) := by
  refine ⟨by decide, by decide, ?_⟩
  decide

/-- C3 (amended): for positive `seq_len` and `batch_size`, a full pass of
`TextDataIter` yields exactly `indexes_len // batch_size` batches when
`indexes_len = length - seq_len + 1` is nonnegative (that is, when
`seq_len <= length + 1`, the count being taken over naturals), and zero
batches otherwise; iteration stops as soon as fewer than `batch_size`
permuted start offsets remain, and every yielded batch is a stack of exactly
`batch_size` windows, each of length `seq_len`. -/
theorem text_iter_pass_count_amended (td : TextData) (LL ss kk fuel : Nat)
    (perm : List Int) (hLL : td.data.length = LL) (hss : 0 < ss) (hkk : 0 < kk)
    (hperm : perm.Perm ((List.range (((LL : Int) - (ss : Int) + 1).toNat)).map
      Int.ofNat))
    (hfuel : (LL + 1 - ss) / kk ≤ fuel) :
    (TextDataIter.runPass fuel (td.iter_shuffle (ss : Int) (kk : Int) perm)).length =
        (LL + 1 - ss) / kk ∧
    ∀ batch ∈ TextDataIter.runPass fuel (td.iter_shuffle (ss : Int) (kk : Int) perm),
      batch.length = kk ∧ ∀ w ∈ batch, w.length = ss := by
  have hdata : (td.iter_shuffle (ss : Int) (kk : Int) perm).data = td.data := rfl
  have hil : (td.iter_shuffle (ss : Int) (kk : Int) perm).indexes_len =
      (td.data.length : Int) - (ss : Int) + 1 := rfl
  by_cases hcase : ss ≤ LL + 1
  · -- nonnegative number of window starts
    have hmm : (td.iter_shuffle (ss : Int) (kk : Int) perm).indexes_len =
        ((LL + 1 - ss : Nat) : Int) := by
      rw [hil, hLL]
      omega
    have hplen : perm.length = LL + 1 - ss := by
      have h1 := hperm.length_eq
      rw [List.length_map, List.length_range] at h1
      rw [h1]
      omega
    have hmaster := text_runPass_eq fuel
      (td.iter_shuffle (ss : Int) (kk : Int) perm) 0 kk (LL + 1 - ss)
      rfl rfl hmm hkk (by omega)
    constructor
    · rw [hmaster, List.length_map, List.length_range', Nat.sub_zero]
    · intro batch hbatch
      rw [hmaster] at hbatch
      obtain ⟨t, ht, rfl⟩ := List.mem_map.mp hbatch
      have htlt : t < (LL + 1 - ss) / kk := by
        have := List.mem_range'_1.mp ht
        omega
      have htk : t * kk + kk ≤ LL + 1 - ss := by
        have h1 : (t + 1) * kk ≤ (LL + 1 - ss) / kk * kk :=
          Nat.mul_le_mul_right kk (by omega)
        have h2 : (LL + 1 - ss) / kk * kk ≤ LL + 1 - ss := Nat.div_mul_le_self _ _
        have h3 : (t + 1) * kk = t * kk + kk := by ring
        omega
      have hnar : (narrowN (td.iter_shuffle (ss : Int) (kk : Int) perm).indexes
          (t * kk) kk).length = kk := by
        apply narrowN_length
        show t * kk + kk ≤ perm.length
        omega
      constructor
      · rw [List.length_map, hnar]
      · intro w hw
        obtain ⟨i, hi, rfl⟩ := List.mem_map.mp hw
        have himem : i ∈ perm := by
          have hsub : (narrowN (td.iter_shuffle (ss : Int) (kk : Int) perm).indexes
              (t * kk) kk) ⊆ perm := fun a ha =>
            List.drop_subset _ _ (List.take_subset _ _ ha)
          exact hsub hi
        have hiv : ∃ v : Nat, i = (v : Int) ∧ v < ((LL : Int) - (ss : Int) + 1).toNat := by
          have := hperm.mem_iff.mp himem
          obtain ⟨v, hv, rfl⟩ := List.mem_map.mp this
          exact ⟨v, rfl, List.mem_range.mp hv⟩
        obtain ⟨v, rfl, hvlt⟩ := hiv
        have hvLL : v + ss ≤ LL := by omega
        show (narrow (td.iter_shuffle (ss : Int) (kk : Int) perm).data
          ((v : Nat) : Int) ((ss : Nat) : Int)).length = ss
        rw [hdata, narrow, Int.toNat_natCast, Int.toNat_natCast,
          List.length_take, List.length_drop, hLL]
        omega
  · -- seq_len exceeds length + 1: negative indexes_len, no batches at all
    have hneg : (td.iter_shuffle (ss : Int) (kk : Int) perm).indexes_len < 0 := by
      rw [hil, hLL]
      omega
    have hnone : TextDataIter.next (td.iter_shuffle (ss : Int) (kk : Int) perm) =
        (none, td.iter_shuffle (ss : Int) (kk : Int) perm) := by
      apply text_next_of_none
      rw [text_next_none_iff]
      have hbi : (td.iter_shuffle (ss : Int) (kk : Int) perm).batch_index = 0 := rfl
      have hbsz : (td.iter_shuffle (ss : Int) (kk : Int) perm).batch_size = (kk : Int) := rfl
      rw [hbi, hbsz]
      have hkk' : (0 : Int) < (kk : Int) := by exact_mod_cast hkk
      omega
    have hempty : TextDataIter.runPass fuel (td.iter_shuffle (ss : Int) (kk : Int) perm) = [] := by
      cases fuel with
      | zero => rfl
      | succ f => simp only [TextDataIter.runPass, hnone]
    rw [hempty]
    refine ⟨?_, by simp⟩
    rw [show LL + 1 - ss = 0 by omega]
    simp

/-- C3 witness for the amended statement: seven encoded bytes, window length 3
and batch size 2 give `(7 - 3 + 1) // 2 = 2` rectangular batches. -/
theorem text_iter_pass_count_amended_witness :
    ((TextData.new [0, 1, 2, 3, 4, 5, 6]).data.length = 7 ∧ 0 < 3 ∧ 0 < 2 ∧
      ([4, 0, 2, 1, 3] : List Int).Perm
        ((List.range (((7 : Int) - (3 : Int) + 1).toNat)).map Int.ofNat) ∧
      (7 + 1 - 3) / 2 ≤ 9) ∧
    (TextDataIter.runPass 9 ((TextData.new [0, 1, 2, 3, 4, 5, 6]).iter_shuffle
        ((3 : Nat) : Int) ((2 : Nat) : Int) [4, 0, 2, 1, 3])).length = (7 + 1 - 3) / 2 ∧
    ∀ batch ∈ TextDataIter.runPass 9 ((TextData.new [0, 1, 2, 3, 4, 5, 6]).iter_shuffle
        ((3 : Nat) : Int) ((2 : Nat) : Int) [4, 0, 2, 1, 3]),
      batch.length = 2 ∧ ∀ w ∈ batch, w.length = 3 := by
  have h := text_iter_pass_count_amended (TextData.new [0, 1, 2, 3, 4, 5, 6]) 7 3 2 9
    [4, 0, 2, 1, 3] (by decide) (by decide) (by decide) (by decide) (by decide)
  exact ⟨⟨by decide, by decide, by decide, by decide, by decide⟩, h.1, h.2⟩

/-- Invariant step for C8: with every stored start offset inside
`[0, indexes_len)` and `indexes_len` at most `length - seq_len + 1`, every
window of every batch the pass emits is a `narrow` of the data at an offset
`s` with `0 <= s <= length - seq_len`. -/
theorem TextDataIter.next_some_shape (it : TextDataIter) (batch : List (List Nat))
    (it2 : TextDataIter) (h : TextDataIter.next it = (some batch, it2)) :
    (∀ w ∈ batch, ∃ i ∈ it.indexes, w = narrow it.data i it.seq_len) ∧
    it2.data = it.data ∧ it2.seq_len = it.seq_len ∧ it2.indexes = it.indexes ∧
    it2.indexes_len = it.indexes_len := by
  simp only [TextDataIter.next] at h
  split at h
  · simp at h
  · injection h with h1 h2
    cases Option.some.inj h1
    subst h2
    refine ⟨?_, rfl, rfl, rfl, rfl⟩
    intro w hw
    obtain ⟨i, hi, rfl⟩ := List.mem_map.mp hw
    refine ⟨i, ?_, rfl⟩
    simp only [narrow] at hi
    exact List.drop_subset _ _ (List.take_subset _ _ hi)

theorem text_windows_in_bounds_aux :
    ∀ (fuel : Nat) (it : TextDataIter),
      (∀ i ∈ it.indexes, 0 ≤ i ∧ i < it.indexes_len) →
      it.indexes_len ≤ (it.data.length : Int) - it.seq_len + 1 →
      ∀ b ∈ TextDataIter.runPass fuel it, ∀ w ∈ b,
        ∃ s : Int, 0 ≤ s ∧ s ≤ (it.data.length : Int) - it.seq_len ∧
          w = narrow it.data s it.seq_len := by
  intro fuel
  induction fuel with
  | zero =>
    intro it _ _ b hb
    simp only [TextDataIter.runPass] at hb
    exact absurd hb (List.not_mem_nil b)
  | succ f IH =>
    intro it hidx hil b hb
    simp only [TextDataIter.runPass] at hb
    cases hnext : TextDataIter.next it with
    | mk ob it2 =>
      rw [hnext] at hb
      cases ob with
      | none => simp at hb
      | some batch =>
        simp only at hb
        obtain ⟨hshape, hd, hs, hx, hl⟩ := TextDataIter.next_some_shape it batch it2 hnext
        rcases List.mem_cons.mp hb with rfl | hb
        · intro w hw
          obtain ⟨i, hi, rfl⟩ := hshape w hw
          obtain ⟨hi0, hilt⟩ := hidx i hi
          exact ⟨i, hi0, by omega, rfl⟩
        · intro w hw
          have hres := IH it2 (by rw [hx, hl]; exact hidx)
            (by rw [hl, hd, hs]; exact hil) b hb w hw
          obtain ⟨s, h1, h2, h3⟩ := hres
          rw [hd, hs] at h2
          rw [hd, hs] at h3
          exact ⟨s, h1, h2, h3⟩

/-- C8: every window emitted by a `TextDataIter` built by `iter_shuffle` with
a permutation of the valid start offsets lies entirely within the encoded
data: its start offset `s` satisfies `0 <= s <= length - seq_len`. -/
theorem text_windows_in_bounds (td : TextData) (seq_len batch_size : Int)
    (perm : List Int) (fuel : Nat)
    (hperm : perm.Perm ((List.range (((td.data.length : Int) - seq_len + 1).toNat)).map
      Int.ofNat)) :
    ∀ b ∈ TextDataIter.runPass fuel (td.iter_shuffle seq_len batch_size perm),
      ∀ w ∈ b, ∃ s : Int, 0 ≤ s ∧ s ≤ (td.data.length : Int) - seq_len ∧
        w = narrow td.data s seq_len := by
  have hidx : ∀ i ∈ (td.iter_shuffle seq_len batch_size perm).indexes,
      0 ≤ i ∧ i < (td.iter_shuffle seq_len batch_size perm).indexes_len := by
    intro i hi
    have : i ∈ (List.range (((td.data.length : Int) - seq_len + 1).toNat)).map Int.ofNat :=
      hperm.mem_iff.mp hi
    obtain ⟨v, hv, rfl⟩ := List.mem_map.mp this
    have hvlt := List.mem_range.mp hv
    have hcoe : (Int.ofNat v) = ((v : Nat) : Int) := rfl
    rw [hcoe]
    have hilen : (td.iter_shuffle seq_len batch_size perm).indexes_len =
        (td.data.length : Int) - seq_len + 1 := rfl
    rw [hilen]
    omega
  exact text_windows_in_bounds_aux fuel (td.iter_shuffle seq_len batch_size perm)
    hidx (le_of_eq rfl)

/-- C8 witness: four encoded bytes, window length 2, batch size 3; the single
emitted batch holds windows starting at offsets 2, 0 and 1. -/
theorem text_windows_in_bounds_witness :
    ([2, 0, 1] : List Int).Perm
      ((List.range ((((TextData.new [9, 9, 8, 7]).data.length : Int) - 2 + 1).toNat)).map
        Int.ofNat) ∧
    ∀ b ∈ TextDataIter.runPass 3 ((TextData.new [9, 9, 8, 7]).iter_shuffle 2 3 [2, 0, 1]),
      ∀ w ∈ b, ∃ s : Int, 0 ≤ s ∧ s ≤ ((TextData.new [9, 9, 8, 7]).data.length : Int) - 2 ∧
        w = narrow (TextData.new [9, 9, 8, 7]).data s 2 :=
  ⟨by decide, text_windows_in_bounds (TextData.new [9, 9, 8, 7]) 2 3 [2, 0, 1] 3 (by decide)⟩

/-! Lemmas about `index_select` under a permutation of the row indices. -/

theorem filterMap_get?_range {α : Type} :
    ∀ l : List α, (List.range l.length).filterMap (fun v => l.get? v) = l := by
  intro l
  induction l with
  | nil => rfl
  | cons a t IH =>
    rw [List.length_cons, List.range_succ_eq_map, List.filterMap_cons,
      List.filterMap_map]
    have hc : ((fun v => (a :: t).get? v) ∘ Nat.succ) = fun v => t.get? v := by
      funext v
      rfl
    rw [hc, IH]
    rfl

theorem index_select_perm {α : Type} (l : List α) (nn : Nat) (index : List Int)
    (hl : l.length = nn) (hperm : index.Perm ((List.range nn).map Int.ofNat)) :
    (index_select l index).Perm l := by
  have h1 : (index_select l index).Perm
      (index_select l ((List.range nn).map Int.ofNat)) :=
    hperm.filterMap _
  have h2 : index_select l ((List.range nn).map Int.ofNat) = l := by
    rw [index_select, List.filterMap_map]
    have hf : ((fun i : Int => if 0 ≤ i then l.get? i.toNat else none) ∘ Int.ofNat) =
        fun v : Nat => l.get? v := by
      funext v
      simp [Function.comp]
    rw [hf, ← hl, filterMap_get?_range]
  rw [h2] at h1
  exact h1

theorem index_select_zip {α β : Type} :
    ∀ (index : List Int) (xs : List α) (ys : List β), xs.length = ys.length →
      index_select (xs.zip ys) index =
        (index_select xs index).zip (index_select ys index) := by
  intro index
  induction index with
  | nil =>
    intro xs ys h
    rfl
  | cons i rest IH =>
    intro xs ys h
    simp only [index_select] at IH ⊢
    by_cases hpos : 0 ≤ i
    · by_cases hlen : i.toNat < xs.length
      · have hxa := List.get?_eq_get hlen
        have hyb := List.get?_eq_get (show i.toNat < ys.length by omega)
        have hzip := (List.get?_zip_eq_some xs ys
          (xs.get ⟨i.toNat, hlen⟩, ys.get ⟨i.toNat, by omega⟩) i.toNat).mpr ⟨hxa, hyb⟩
        rw [List.filterMap_cons_some (by rw [if_pos hpos]; exact hzip),
          List.filterMap_cons_some (by rw [if_pos hpos]; exact hxa),
          List.filterMap_cons_some (by rw [if_pos hpos]; exact hyb),
          List.zip_cons_cons]
        exact congrArg (List.cons _) (IH xs ys h)
      · rw [List.filterMap_cons_none (by
            rw [if_pos hpos]
            exact List.get?_eq_none.mpr (by rw [List.length_zip]; omega)),
          List.filterMap_cons_none (by
            rw [if_pos hpos]
            exact List.get?_eq_none.mpr (by omega)),
          List.filterMap_cons_none (by
            rw [if_pos hpos]
            exact List.get?_eq_none.mpr (by omega))]
        exact IH xs ys h
    · rw [List.filterMap_cons_none (by rw [if_neg hpos]),
        List.filterMap_cons_none (by rw [if_neg hpos]),
        List.filterMap_cons_none (by rw [if_neg hpos])]
      exact IH xs ys h

/-- C7: when the permutation generator yields permutations of `0 .. total_size`,
`Iter2.shuffle` reorders the rows of both tensors under one shared
permutation: the multiset of aligned (feature row, target row) pairs is
exactly preserved, row lengths are preserved, and a second shuffle preserves
it again. -/
theorem iter2_shuffle_preserves_pairs {α β : Type} (it : Iter2 α β) (nn : Nat)
    (p1 p2 : List Int) (_hts : it.total_size = (nn : Int))
    (hxs : it.xs.length = nn) (hys : it.ys.length = nn)
    (h1 : p1.Perm ((List.range nn).map Int.ofNat))
    (h2 : p2.Perm ((List.range nn).map Int.ofNat)) :
    ((it.shuffle p1).xs.zip (it.shuffle p1).ys).Perm (it.xs.zip it.ys) ∧
    (it.shuffle p1).xs.length = nn ∧ (it.shuffle p1).ys.length = nn ∧
    (it.shuffle p1).total_size = (nn : Int) ∧
    (((it.shuffle p1).shuffle p2).xs.zip ((it.shuffle p1).shuffle p2).ys).Perm
      (it.xs.zip it.ys) := by
  have hzip : ∀ (p : List Int) (xs : List α) (ys : List β), xs.length = nn →
      ys.length = nn → p.Perm ((List.range nn).map Int.ofNat) →
      ((index_select xs p).zip (index_select ys p)).Perm (xs.zip ys) := by
    intro p xs ys hx hy hp
    rw [← index_select_zip p xs ys (by omega)]
    exact index_select_perm (xs.zip ys) nn p (by rw [List.length_zip]; omega) hp
  have hx1 : (it.shuffle p1).xs = index_select it.xs p1 := rfl
  have hy1 : (it.shuffle p1).ys = index_select it.ys p1 := rfl
  have hlx1 : (it.shuffle p1).xs.length = nn :=
    (index_select_perm it.xs nn p1 hxs h1).length_eq.trans hxs
  have hly1 : (it.shuffle p1).ys.length = nn :=
    (index_select_perm it.ys nn p1 hys h1).length_eq.trans hys
  refine ⟨hzip p1 it.xs it.ys hxs hys h1, hlx1, hly1, _hts, ?_⟩
  have hp2 : (((it.shuffle p1).shuffle p2).xs.zip ((it.shuffle p1).shuffle p2).ys).Perm
      ((it.shuffle p1).xs.zip (it.shuffle p1).ys) :=
    hzip p2 (it.shuffle p1).xs (it.shuffle p1).ys hlx1 hly1 h2
  exact hp2.trans (hzip p1 it.xs it.ys hxs hys h1)

/-- C7 witness: three aligned rows shuffled by `[2, 0, 1]` and then by
`[1, 2, 0]`. -/
theorem iter2_shuffle_preserves_pairs_witness :
    ((⟨[10, 11, 12], [20, 21, 22], 0, 1, 3, Device.Cpu, false⟩ : Iter2 Nat Nat).total_size
        = ((3 : Nat) : Int) ∧
      ([2, 0, 1] : List Int).Perm ((List.range 3).map Int.ofNat) ∧
      ([1, 2, 0] : List Int).Perm ((List.range 3).map Int.ofNat)) ∧
    (((⟨[10, 11, 12], [20, 21, 22], 0, 1, 3, Device.Cpu, false⟩ : Iter2 Nat Nat).shuffle
        [2, 0, 1]).xs.zip
      ((⟨[10, 11, 12], [20, 21, 22], 0, 1, 3, Device.Cpu, false⟩ : Iter2 Nat Nat).shuffle
        [2, 0, 1]).ys).Perm
      ([10, 11, 12].zip [20, 21, 22]) ∧
    ((((⟨[10, 11, 12], [20, 21, 22], 0, 1, 3, Device.Cpu, false⟩ : Iter2 Nat Nat).shuffle
        [2, 0, 1]).shuffle [1, 2, 0]).xs.zip
      (((⟨[10, 11, 12], [20, 21, 22], 0, 1, 3, Device.Cpu, false⟩ : Iter2 Nat Nat).shuffle
        [2, 0, 1]).shuffle [1, 2, 0]).ys).Perm
      ([10, 11, 12].zip [20, 21, 22]) := by
  have h := iter2_shuffle_preserves_pairs
    (⟨[10, 11, 12], [20, 21, 22], 0, 1, 3, Device.Cpu, false⟩ : Iter2 Nat Nat) 3
    [2, 0, 1] [1, 2, 0] (by decide) (by decide) (by decide) (by decide) (by decide)
  exact ⟨⟨by decide, by decide, by decide⟩, h.1, h.2.2.2.2⟩

/-! Lemmas about first-occurrence order, supporting the encoding claims. -/

theorem firstIndex_append_left {c : Nat} :
    ∀ {l1 : List Nat} (l2 : List Nat), c ∈ l1 →
      firstIndex c (l1 ++ l2) = firstIndex c l1 := by
  intro l1
  induction l1 with
  | nil =>
    intro l2 h
    exact absurd h (List.not_mem_nil c)
  | cons x t IH =>
    intro l2 h
    by_cases hxc : x = c
    · simp [firstIndex, hxc]
    · have hct : c ∈ t := by
        rcases List.mem_cons.mp h with h | h
        · exact absurd h.symm hxc
        · exact h
      simp [firstIndex, hxc, IH l2 hct]

theorem firstIndex_append_self {c : Nat} :
    ∀ {l1 : List Nat} (l2 : List Nat), c ∉ l1 →
      firstIndex c (l1 ++ c :: l2) = l1.length := by
  intro l1
  induction l1 with
  | nil =>
    intro l2 _
    simp [firstIndex]
  | cons x t IH =>
    intro l2 h
    have hxc : x ≠ c := fun hx => h (hx ▸ List.mem_cons_self x t)
    have hct : c ∉ t := fun hx => h (List.mem_cons_of_mem x hx)
    simp [firstIndex, hxc, IH l2 hct]

theorem firstOccsAux_congr :
    ∀ (l : List Nat) {s1 s2 : List Nat}, (∀ x, x ∈ s1 ↔ x ∈ s2) →
      firstOccsAux s1 l = firstOccsAux s2 l := by
  intro l
  induction l with
  | nil => intro s1 s2 _; rfl
  | cons c r IH =>
    intro s1 s2 h
    by_cases hc : c ∈ s1
    · rw [firstOccsAux, firstOccsAux, if_pos hc, if_pos ((h c).mp hc)]
      exact IH h
    · rw [firstOccsAux, firstOccsAux, if_neg hc, if_neg (fun hx => hc ((h c).mpr hx))]
      refine congrArg (List.cons c) (IH ?_)
      intro x
      simp only [List.mem_cons]
      exact or_congr Iff.rfl (h x)

theorem mem_of_mem_firstOccsAux :
    ∀ (l seen : List Nat) (x : Nat), x ∈ firstOccsAux seen l → x ∈ l := by
  intro l
  induction l with
  | nil =>
    intro seen x h
    exact absurd h (List.not_mem_nil x)
  | cons c r IH =>
    intro seen x h
    by_cases hc : c ∈ seen
    · rw [firstOccsAux, if_pos hc] at h
      exact List.mem_cons_of_mem c (IH seen x h)
    · rw [firstOccsAux, if_neg hc] at h
      rcases List.mem_cons.mp h with rfl | h
      · exact List.mem_cons_self x r
      · exact List.mem_cons_of_mem c (IH (c :: seen) x h)

theorem not_mem_firstOccsAux :
    ∀ (l seen : List Nat) (x : Nat), x ∈ seen → x ∉ firstOccsAux seen l := by
  intro l
  induction l with
  | nil =>
    intro seen x _
    exact List.not_mem_nil x
  | cons c r IH =>
    intro seen x hx
    by_cases hc : c ∈ seen
    · rw [firstOccsAux, if_pos hc]
      exact IH seen x hx
    · rw [firstOccsAux, if_neg hc]
      intro hmem
      rcases List.mem_cons.mp hmem with rfl | hmem
      · exact hc hx
      · exact IH (c :: seen) x (List.mem_cons_of_mem c hx) hmem

theorem firstOccsAux_nodup :
    ∀ (l seen : List Nat), (firstOccsAux seen l).Nodup := by
  intro l
  induction l with
  | nil => intro seen; exact List.nodup_nil
  | cons c r IH =>
    intro seen
    by_cases hc : c ∈ seen
    · rw [firstOccsAux, if_pos hc]
      exact IH seen
    · rw [firstOccsAux, if_neg hc]
      exact List.nodup_cons.mpr
        ⟨not_mem_firstOccsAux r (c :: seen) c (List.mem_cons_self c seen), IH (c :: seen)⟩

theorem firstOccsAux_toFinset :
    ∀ (l seen : List Nat), (firstOccsAux seen l).toFinset = l.toFinset \ seen.toFinset := by
  intro l
  induction l with
  | nil =>
    intro seen
    simp [firstOccsAux]
  | cons c r IH =>
    intro seen
    by_cases hc : c ∈ seen
    · rw [firstOccsAux, if_pos hc, IH seen, List.toFinset_cons,
        Finset.insert_sdiff_of_mem _ (List.mem_toFinset.mpr hc)]
    · rw [firstOccsAux, if_neg hc, List.toFinset_cons, IH (c :: seen), List.toFinset_cons,
        List.toFinset_cons]
      ext x
      by_cases hxc : x = c
      · subst hxc
        simp [hc]
      · simp [hxc]

theorem nodup_bounded_length_le {l : List Nat} (hnd : l.Nodup)
    (hb : ∀ x ∈ l, x < 256) : l.length ≤ 256 := by
  have h1 : l.toFinset.card = l.length := List.toFinset_card_of_nodup hnd
  have h2 : l.toFinset ⊆ Finset.range 256 := fun x hx =>
    Finset.mem_range.mpr (hb x (List.mem_toFinset.mp hx))
  have h3 := Finset.card_le_card h2
  rw [Finset.card_range] at h3
  omega

/-- Master refinement of the encoding loop: with the association list
faithfully indexing the distinct values seen so far (in first-occurrence
order), the loop labels each byte with the first-occurrence rank of its value
and appends each new value's character. -/
theorem encodeLoop_spec :
    ∀ (rest occs : List Nat) (lfc : List (Nat × Nat)),
      occs.Nodup → (∀ c ∈ occs, c < 256) → (∀ c ∈ rest, c < 256) →
      (∀ c : Nat, lfc.lookup c = if c ∈ occs then some (firstIndex c occs) else none) →
      encodeLoop rest lfc (occs.map Char.ofNat) =
        ((rest.map fun c => firstIndex c (occs ++ firstOccsAux occs rest)),
         (occs ++ firstOccsAux occs rest).map Char.ofNat) := by
  intro rest
  induction rest with
  | nil =>
    intro occs lfc _ _ _ _
    simp [encodeLoop, firstOccsAux]
  | cons c r IH =>
    intro occs lfc hnd hb256 hrb hlfc
    have hcb : c < 256 := hrb c (List.mem_cons_self c r)
    have hrb' : ∀ x ∈ r, x < 256 := fun x hx => hrb x (List.mem_cons_of_mem c hx)
    by_cases hmem : c ∈ occs
    · have hlook : lfc.lookup c = some (firstIndex c occs) := by
        rw [hlfc c, if_pos hmem]
      simp only [encodeLoop, hlook]
      rw [IH occs lfc hnd hb256 hrb' hlfc]
      have hfo : firstOccsAux occs (c :: r) = firstOccsAux occs r := by
        rw [firstOccsAux, if_pos hmem]
      rw [hfo, List.map_cons, firstIndex_append_left _ hmem]
    · have hlook : lfc.lookup c = none := by
        rw [hlfc c, if_neg hmem]
      simp only [encodeLoop, hlook]
      have hlen255 : occs.length ≤ 255 := by
        have hnd' : (c :: occs).Nodup := List.nodup_cons.mpr ⟨hmem, hnd⟩
        have hb' : ∀ x ∈ c :: occs, x < 256 := by
          intro x hx
          rcases List.mem_cons.mp hx with rfl | hx
          · exact hcb
          · exact hb256 x hx
        have h1 := nodup_bounded_length_le hnd' hb'
        rw [List.length_cons] at h1
        omega
      have hlabel : (occs.map Char.ofNat).length % 256 = occs.length := by
        rw [List.length_map]
        omega
      rw [hlabel]
      have hcfl : occs.map Char.ofNat ++ [Char.ofNat c] = (occs ++ [c]).map Char.ofNat := by
        rw [List.map_append]
        rfl
      rw [hcfl]
      have hnd2 : (occs ++ [c]).Nodup := by
        rw [List.nodup_append]
        refine ⟨hnd, List.nodup_singleton c, ?_⟩
        intro x hx hx1
        rw [List.mem_singleton] at hx1
        exact hmem (hx1 ▸ hx)
      have hb2 : ∀ x ∈ occs ++ [c], x < 256 := by
        intro x hx
        rcases List.mem_append.mp hx with hx | hx
        · exact hb256 x hx
        · rw [List.mem_singleton] at hx
          exact hx ▸ hcb
      have hlfc2 : ∀ x : Nat, ((c, occs.length) :: lfc).lookup x =
          if x ∈ occs ++ [c] then some (firstIndex x (occs ++ [c])) else none := by
        intro x
        by_cases hxc : x = c
        · subst hxc
          have hbeq : (x == x) = true := beq_self_eq_true x
          rw [List.lookup_cons, hbeq]
          rw [if_pos (List.mem_append_right occs (List.mem_singleton_self x))]
          rw [show occs ++ [x] = occs ++ x :: [] from rfl, firstIndex_append_self [] hmem]
        · have hbeq : (x == c) = false := beq_eq_false_iff_ne.mpr hxc
          rw [List.lookup_cons, hbeq, hlfc x]
          by_cases hxo : x ∈ occs
          · rw [if_pos hxo, if_pos (List.mem_append_left _ hxo),
              firstIndex_append_left _ hxo]
          · rw [if_neg hxo, if_neg (fun hx => by
              rcases List.mem_append.mp hx with h | h
              · exact hxo h
              · exact hxc (List.mem_singleton.mp h))]
      rw [IH (occs ++ [c]) ((c, occs.length) :: lfc) hnd2 hb2 hrb' hlfc2]
      have hfo : firstOccsAux occs (c :: r) = c :: firstOccsAux (occs ++ [c]) r := by
        rw [firstOccsAux, if_neg hmem]
        refine congrArg (List.cons c) (firstOccsAux_congr r ?_)
        intro x
        simp [List.mem_cons, List.mem_append, or_comm]
      have hassoc : occs ++ firstOccsAux occs (c :: r) =
          (occs ++ [c]) ++ firstOccsAux (occs ++ [c]) r := by
        rw [hfo, List.append_assoc, List.singleton_append]
      rw [hassoc, List.map_cons]
      have hhead : firstIndex c ((occs ++ [c]) ++ firstOccsAux (occs ++ [c]) r) =
          occs.length := by
        rw [List.append_assoc, List.singleton_append]
        exact firstIndex_append_self _ hmem
      rw [hhead]

/-- C4: `TextData::new` scans the bytes in order, giving each previously
unseen byte value the next sequential label starting at 0 and reusing labels
for seen values: the encoded array equals the spec-side `encodeSpec` (one
first-occurrence-rank label per input byte, characters recorded in
first-occurrence order), its length is the input length, `labels()` is the
number of distinct byte values, and `[10, 20, 10, 30]` encodes to
`[0, 1, 0, 2]` with three labels. -/
theorem textdata_encoding_spec (buffer : List Nat) (hb : ∀ c ∈ buffer, c < 256) :
    (TextData.new buffer).data = (encodeSpec buffer).1 ∧
    (TextData.new buffer).char_for_label = (encodeSpec buffer).2 ∧
    (TextData.new buffer).data.length = buffer.length ∧
    (TextData.new buffer).labels = (buffer.toFinset.card : Int) ∧
    (TextData.new [10, 20, 10, 30]).data = [0, 1, 0, 2] ∧
    (TextData.new [10, 20, 10, 30]).labels = 3 := by
  have hmain := encodeLoop_spec buffer [] [] List.nodup_nil
    (by intro c hc; exact absurd hc (List.not_mem_nil c)) hb
    (by intro c; simp)
  simp only [List.map_nil, List.nil_append] at hmain
  have hdata : (TextData.new buffer).data = (encodeLoop buffer [] []).1 := rfl
  have hcfl : (TextData.new buffer).char_for_label = (encodeLoop buffer [] []).2 := rfl
  have hofin : (firstOccsAux [] buffer).length = buffer.toFinset.card := by
    have hnd := firstOccsAux_nodup buffer []
    have htf : (firstOccsAux [] buffer).toFinset = buffer.toFinset := by
      rw [firstOccsAux_toFinset]
      simp
    rw [← List.toFinset_card_of_nodup hnd, htf]
  refine ⟨?_, ?_, ?_, ?_, by decide, by decide⟩
  · rw [hdata, hmain]
    rfl
  · rw [hcfl, hmain]
    rfl
  · rw [hdata, hmain]
    dsimp only
    rw [List.length_map]
  · show ((TextData.new buffer).char_for_label.length : Int) = (buffer.toFinset.card : Int)
    rw [hcfl, hmain]
    dsimp only
    rw [List.length_map, hofin]

/-- C4 witness at the spec's own example bytes. -/
theorem textdata_encoding_spec_witness :
    (∀ c ∈ ([10, 20, 10, 30] : List Nat), c < 256) ∧
    (TextData.new [10, 20, 10, 30]).data = (encodeSpec [10, 20, 10, 30]).1 ∧
    (TextData.new [10, 20, 10, 30]).labels =
      (([10, 20, 10, 30] : List Nat).toFinset.card : Int) :=
  ⟨by decide,
    (textdata_encoding_spec [10, 20, 10, 30] (by decide)).1,
    (textdata_encoding_spec [10, 20, 10, 30] (by decide)).2.2.2.1⟩

/-- C9: `label_to_char` fails fatally (out-of-bounds indexing through the
`as usize` cast) exactly when the label is outside `[0, labels())`, and for a
label in that range it returns the entry of `char_for_label` recorded for it
at encoding time. The label is an `i64`, hence the range hypothesis. -/
theorem label_to_char_range (buffer : List Nat) (hb : ∀ c ∈ buffer, c < 256)
    (label : Int) (hrange : -(2 : Int) ^ 63 ≤ label ∧ label < 2 ^ 63) :
    ((TextData.new buffer).label_to_char label = none ↔
      ¬(0 ≤ label ∧ label < (TextData.new buffer).labels)) ∧
    (0 ≤ label → label < (TextData.new buffer).labels →
      (TextData.new buffer).label_to_char label =
        (TextData.new buffer).char_for_label.get? label.toNat ∧
        ((TextData.new buffer).char_for_label.get? label.toNat).isSome = true) := by
  have hpow64 : (2 : Int) ^ 64 = 18446744073709551616 := by norm_num
  have hpow63 : (2 : Int) ^ 63 = 9223372036854775808 := by norm_num
  rw [hpow63] at hrange
  have hlen : (TextData.new buffer).char_for_label.length ≤ 256 := by
    have hmain := encodeLoop_spec buffer [] [] List.nodup_nil
      (by intro c hc; exact absurd hc (List.not_mem_nil c)) hb
      (by intro c; simp)
    simp only [List.map_nil, List.nil_append] at hmain
    have hcfl : (TextData.new buffer).char_for_label = (encodeLoop buffer [] []).2 := rfl
    rw [hcfl, hmain]
    dsimp only
    rw [List.length_map]
    refine nodup_bounded_length_le (firstOccsAux_nodup buffer []) ?_
    intro x hx
    exact hb x (mem_of_mem_firstOccsAux buffer [] x hx)
  have hlab : (TextData.new buffer).labels =
      ((TextData.new buffer).char_for_label.length : Int) := rfl
  have hcast : 0 ≤ label → castUsize label = label.toNat := by
    intro h0
    rw [castUsize, hpow64]
    omega
  constructor
  · simp only [TextData.label_to_char]
    rcases le_or_lt 0 label with h0 | h0
    · rw [hcast h0, List.get?_eq_none, hlab]
      omega
    · have hge : 256 ≤ castUsize label := by
        rw [castUsize, hpow64]
        omega
      rw [List.get?_eq_none.mpr (by omega)]
      refine iff_of_true rfl ?_
      rintro ⟨h1, -⟩
      omega
  · intro h0 hlt
    rw [hlab] at hlt
    have hltn : label.toNat < (TextData.new buffer).char_for_label.length := by omega
    constructor
    · simp only [TextData.label_to_char]
      rw [hcast h0]
    · rw [List.get?_eq_get hltn]
      rfl

/-- C9 witness: labels 1 (in range), 7 and -1 (out of range) on the example
bytes with three labels. -/
theorem label_to_char_range_witness :
    ((TextData.new [10, 20, 10, 30]).label_to_char 1 =
        (TextData.new [10, 20, 10, 30]).char_for_label.get? 1 ∧
      ((TextData.new [10, 20, 10, 30]).char_for_label.get? 1).isSome = true) ∧
    ((TextData.new [10, 20, 10, 30]).label_to_char 7 = none ↔
      ¬(0 ≤ (7 : Int) ∧ (7 : Int) < (TextData.new [10, 20, 10, 30]).labels)) ∧
    ((TextData.new [10, 20, 10, 30]).label_to_char (-1) = none ↔
      ¬(0 ≤ (-1 : Int) ∧ (-1 : Int) < (TextData.new [10, 20, 10, 30]).labels)) := by
  have h1 := label_to_char_range [10, 20, 10, 30] (by decide) 1 (by norm_num)
  have h7 := label_to_char_range [10, 20, 10, 30] (by decide) 7 (by norm_num)
  have hm := label_to_char_range [10, 20, 10, 30] (by decide) (-1) (by norm_num)
  exact ⟨h1.2 (by norm_num) (by decide), h7.1, hm.1⟩

end Tch
